import Mathlib

/-!
Verification of the Wayfinder destination-search engine.

Shallow embedding of the search logic of `src/js/search.js` (class
`SearchEngine`) and its duplicate in `src/app.js`, together with the
utilities `levenshteinDistance` and `escapeRegExp` from `src/app.js`.

Modelling conventions:
* JS strings are `List Char`; all inputs of interest are Basic Latin, and
  `Char.toLower` coincides with `String.prototype.toLowerCase` there.
* `a.includes(b)`, `a.startsWith(b)`, `a.endsWith(b)` are the decidable
  infix / prefix / suffix predicates on lists.
* JS `Array.prototype.sort` is stable (ECMA-262) and the comparator used by
  the engine is consistent (lexicographic on score descending, then name
  length ascending); a stable sort under such a comparator is extensionally
  the unique sort by (score descending, name length ascending, original
  index ascending), which we realise by insertion sort over index-tagged
  candidates.
* The fuzzy-similarity arithmetic `(m - d) / m >= 0.7` and
  `Math.floor(similarity * 60)` is embedded with exact integer arithmetic
  (`7 * m ≤ 10 * (m - d)` and `60 * (m - d) / m`), which agrees with the
  IEEE double computation for every string of realistic length.
-/

/-- Shorthand for turning a string literal into the `List Char` model. -/
def strL (s : String) : List Char := s.data

/-- The character class `\s` of JS regular expressions, which is also the
set of characters removed by `String.prototype.trim`. -/
def isWsChar (c : Char) : Bool :=
  c == ' ' || c == '\t' || c == '\n' || c == '\r' ||
  c.toNat == 11 || c.toNat == 12 || c.toNat == 160 || c.toNat == 0x1680 ||
  (0x2000 ≤ c.toNat && c.toNat ≤ 0x200A) || c.toNat == 0x2028 ||
  c.toNat == 0x2029 || c.toNat == 0x202F || c.toNat == 0x205F ||
  c.toNat == 0x3000 || c.toNat == 0xFEFF

/-- The character class `[0-9]` (also `\d`) of JS regular expressions. -/
def isAsciiDigit (c : Char) : Bool := '0' ≤ c && c ≤ '9'

/-- The character class `[A-Za-z]` of JS regular expressions. -/
def isAsciiLetter (c : Char) : Bool := ('a' ≤ c && c ≤ 'z') || ('A' ≤ c && c ≤ 'Z')

/-- `String.prototype.toLowerCase`, restricted to the Basic Latin range. -/
def toLowerL (l : List Char) : List Char := l.map Char.toLower

/-- `String.prototype.trim`: whitespace stripped from both ends. -/
def trimL (l : List Char) : List Char :=
  ((l.dropWhile isWsChar).reverse.dropWhile isWsChar).reverse

/-- Single-pass scanner for `split(/\s+/)`.  In mode `false` it is
accumulating the current piece in `acc` (reversed); a whitespace character
emits the piece and switches to mode `true`, which skips the rest of the
whitespace run. -/
def splitWsGo : Bool → List Char → List Char → List (List Char)
  | false, [], acc => [acc.reverse]
  | false, c :: rest, acc =>
    if isWsChar c then acc.reverse :: splitWsGo true rest []
    else splitWsGo false rest (c :: acc)
  | true, [], _ => [[]]
  | true, c :: rest, acc =>
    if isWsChar c then splitWsGo true rest acc
    else splitWsGo false rest [c]

/-- JS `text.split(/\s+/)`: pieces between maximal whitespace runs,
including an empty leading (trailing) piece when the string starts (ends)
with whitespace, and `[""]` for the empty string. -/
def splitWs (l : List Char) : List (List Char) := splitWsGo false l []

/-- Reference recursive formulation of the Levenshtein recurrence used by
`levenshteinDistance` (src/app.js lines 438-464), consuming both strings
from the back: `matrix[i][j]` of the source (the distance of the
length-`j` prefix of `str1` and the length-`i` prefix of `str2`) satisfies
"equal last characters: diagonal; otherwise min(diagonal + 1, left + 1,
above + 1)", which is this recursion applied to the reversed prefixes.
The proofs below relate the row-by-row table of the source to this
function. -/
def levCore : List Char → List Char → Nat
  | [], ys => ys.length
  | xs, [] => xs.length
  | x :: xs, y :: ys =>
    if y == x then levCore xs ys
    else Nat.min (Nat.min (levCore xs ys + 1) (levCore xs (y :: ys) + 1))
      (levCore (x :: xs) ys + 1)
termination_by xs ys => xs.length + ys.length
decreasing_by all_goals simp_arith

/-- The inner `for (j = 1..str1.length)` loop of `levenshteinDistance`:
computes the cells (index 1 and up) of row `i` of the matrix from the
characters of `str1`, the cells of row `i - 1` starting at index `j - 1`
(so `diag`, then `above`), and the cell to the left of the current one. -/
def levRowAux (c2 : Char) : List Char → List Nat → Nat → List Nat
  | [], _, _ => []
  | _ :: _, [], _ => []
  | c1 :: cs1, diag :: prevRest, left =>
    let above := prevRest.headD 0
    let v := if c2 == c1 then diag
      else Nat.min (Nat.min (diag + 1) (left + 1)) (above + 1)
    v :: levRowAux c2 cs1 prevRest v

/-- The outer `for (i = 1..str2.length)` loop of `levenshteinDistance`:
successively replaces row `i - 1` by row `i`; a row starts with its row
index (`matrix[i][0] = i`, one more than the start of the previous row). -/
def levRowsGo (str1 : List Char) : List Char → List Nat → List Nat
  | [], prev => prev
  | c2 :: cs2, prev =>
    let first := prev.headD 0 + 1
    levRowsGo str1 cs2 (first :: levRowAux c2 str1 prev first)

/-- `levenshteinDistance(str1, str2)` of src/app.js lines 438-464: the
dynamic-programming table, built row by row from `matrix[0] = [0..len1]`,
returning the bottom-right cell `matrix[len2][len1]`. -/
def levenshteinDistance (str1 str2 : List Char) : Nat :=
  (levRowsGo str1 str2 (List.range (str1.length + 1))).getLastD 0

/-- Test of `/^[0-9]+[A-Za-z]*$/`. -/
def matchesP1 (q : List Char) : Bool :=
  !(q.takeWhile isAsciiDigit).isEmpty && (q.dropWhile isAsciiDigit).all isAsciiLetter

/-- Test of `/^[A-Za-z]+[0-9]+[A-Za-z]*$/`. -/
def matchesP2 (q : List Char) : Bool :=
  !(q.takeWhile isAsciiLetter).isEmpty && matchesP1 (q.dropWhile isAsciiLetter)

/-- `matchesPattern(query)` of the search engine (src/js/search.js
lines 118-120). -/
def matchesPattern (q : List Char) : Bool := matchesP1 q || matchesP2 q

/-- One step of the global regex scan
`text.match(/[0-9]+[A-Za-z]*|[A-Za-z]+[0-9]+[A-Za-z]*/g)`: the match
attempt at the current position.  Since the two character classes are
disjoint, the greedy alternation matches a maximal digit run followed by a
maximal letter run (first alternative), or a maximal letter run that must
be followed by a digit run and then a letter run (second alternative).
Returns the matched token and the remaining input. -/
def patternTokenAt : List Char → Option (List Char × List Char)
  | [] => none
  | c :: rest =>
    if isAsciiDigit c then
      let l := c :: rest
      some (l.takeWhile isAsciiDigit ++ (l.dropWhile isAsciiDigit).takeWhile isAsciiLetter,
        (l.dropWhile isAsciiDigit).dropWhile isAsciiLetter)
    else if isAsciiLetter c then
      let l := c :: rest
      let r1 := l.dropWhile isAsciiLetter
      if (r1.takeWhile isAsciiDigit).isEmpty then none
      else
        some (l.takeWhile isAsciiLetter ++ r1.takeWhile isAsciiDigit ++
            (r1.dropWhile isAsciiDigit).takeWhile isAsciiLetter,
          (r1.dropWhile isAsciiDigit).dropWhile isAsciiLetter)
    else none

/-- The full global regex scan, fuelled (the fuel only bounds the number
of scan steps; each step either consumes the non-empty match or advances
one character, so `l.length` steps always suffice): all non-overlapping,
leftmost, greedy matches of
`/[0-9]+[A-Za-z]*|[A-Za-z]+[0-9]+[A-Za-z]*/g` in the text. -/
def extractPatternsF : Nat → List Char → List (List Char)
  | 0, _ => []
  | fuel + 1, l =>
    match patternTokenAt l with
    | some (tok, r) => tok :: extractPatternsF fuel r
    | none =>
      match l with
      | [] => []
      | _ :: rest => extractPatternsF fuel rest

/-- `text.match(/[0-9]+[A-Za-z]*|[A-Za-z]+[0-9]+[A-Za-z]*/g)` (with `[]`
for a `null` result). -/
def extractPatterns (l : List Char) : List (List Char) :=
  extractPatternsF l.length l

/-- The `for (const pattern of patterns)` loop of `getPatternMatchScore`:
returns at the FIRST token that matches, 85 when that token equals the
query, 75 when it merely contains it. -/
def patternLoop (query : List Char) : List (List Char) → Nat
  | [] => 0
  | p :: ps =>
    if toLowerL p = query then 85
    else if query <:+: toLowerL p then 75
    else patternLoop query ps

/-- `getPatternMatchScore(text, query)` of the search engine
(src/js/search.js lines 122-129). -/
def getPatternMatchScore (text query : List Char) : Nat :=
  patternLoop query (extractPatterns text)

/-- The per-word body of `getFuzzyMatchScore`: words within two characters
of the query length are scored by normalized Levenshtein similarity
`(m - d) / m` with `m = max(len(word), len(query))`; a word is accepted
when the similarity is at least 0.7 and contributes
`floor(similarity * 60)`, in exact arithmetic `60 * (m - d) / m`. -/
def wordFuzzyScore (query w : List Char) : Nat :=
  if w.length ≤ query.length + 2 ∧ query.length ≤ w.length + 2 then
    let d := levenshteinDistance w query
    let m := max w.length query.length
    if 7 * m ≤ 10 * (m - d) then 60 * (m - d) / m else 0
  else 0

/-- `getFuzzyMatchScore(text, query)` of the search engine
(src/js/search.js lines 131-145): best accepted word score, via the
`forEach` accumulator `bestScore`. -/
def getFuzzyMatchScore (text query : List Char) : Nat :=
  (splitWs text).foldl (fun best w => max best (wordFuzzyScore query w)) 0

/-- `hasPartialWordMatch(text, query)` of the search engine
(src/js/search.js lines 105-116). -/
def hasPartialWordMatch (text query : List Char) : Bool :=
  (splitWs text).any fun w =>
    if query <:+: w then
      if query.length ≤ 2 then
        decide (query <+: w) || decide (query <:+ w) || query.any isAsciiDigit
      else true
    else false

/-- A destination node of the library graph (data model of the spec,
consumed by `searchDestinations`). -/
structure DestNode where
  id : List Char
  name : List Char
  type : List Char
  floor : Int
  search_keywords : List (List Char)
deriving DecidableEq

/-- The root graph object; the engine only reads `nodes`. -/
structure LibraryData where
  nodes : List DestNode
deriving DecidableEq

/-- Engine configuration: `{ maxSuggestions: 6 }` by default. -/
structure SearchConfig where
  maxSuggestions : Nat
deriving DecidableEq

/-- Heuristics 1-5 of `searchDestinations`: the if/else chain over the
lowercased name (src/js/search.js lines 30-49). -/
def chainScore (queryLower nameLower : List Char) (nameWords : List (List Char)) : Nat :=
  if nameLower = queryLower then 100
  else if queryLower <+: nameLower then 95
  else if ∃ w ∈ nameWords, queryLower <+: w then 90
  else if queryLower <:+: nameLower then 85
  else if hasPartialWordMatch nameLower queryLower then 80
  else 0

/-- Heuristic 6: the `search_keywords` loop with its internal running
maximum (src/js/search.js lines 51-65).  A node without keywords is
modelled by the empty list, for which the loop body never runs and the
contribution is 0, exactly as in the source. -/
def keywordScore (queryLower : List Char) (keywords : List (List Char)) : Nat :=
  keywords.foldl
    (fun acc kw =>
      let kwLower := toLowerL kw
      if kwLower = queryLower then max acc 75
      else if queryLower <+: kwLower then max acc 70
      else if queryLower <:+: kwLower then max acc 65
      else acc)
    0

/-- The running score after heuristics 1-6:
`score = Math.max(score, keywordScore)`. -/
def scoreThrough6 (queryLower : List Char) (node : DestNode) : Nat :=
  let nameLower := toLowerL node.name
  max (chainScore queryLower nameLower (splitWs nameLower))
    (keywordScore queryLower node.search_keywords)

/-- The running score after heuristic 7, the short-query fallback
(src/js/search.js lines 67-76): only consulted when the query has at most
three characters and the score is still 0. -/
def scoreThrough7 (queryLower : List Char) (node : DestNode) : Nat :=
  let s := scoreThrough6 queryLower node
  if queryLower.length ≤ 3 ∧ s = 0 then
    let nameLower := toLowerL node.name
    if ∃ w ∈ splitWs nameLower, queryLower <:+: w then 75
    else if queryLower <:+: nameLower then 70
    else 0
  else s

/-- The running score after heuristic 8, the room-code pattern heuristic
(src/js/search.js lines 78-82), folded in by `Math.max`. -/
def scoreThrough8 (queryLower : List Char) (node : DestNode) : Nat :=
  let s := scoreThrough7 queryLower node
  if matchesPattern queryLower then
    max s (getPatternMatchScore (toLowerL node.name) queryLower)
  else s

/-- The final per-node score of `searchDestinations`: heuristic 9 (fuzzy
matching, src/js/search.js lines 84-88) runs only when the score is still
0 and the query has at least three characters. -/
def scoreNode (queryLower : List Char) (node : DestNode) : Nat :=
  let s := scoreThrough8 queryLower node
  if s = 0 ∧ 3 ≤ queryLower.length then
    max s (getFuzzyMatchScore (toLowerL node.name) queryLower)
  else s

/-- The candidate accumulation loop of `searchDestinations`
(src/js/search.js lines 23-93): destination nodes with a positive score,
paired with their score, in node load order. -/
def scoredResults (queryLower : List Char) (nodes : List DestNode) : List (DestNode × Nat) :=
  nodes.filterMap fun node =>
    if node.type = strL "destination" then
      let s := scoreNode queryLower node
      if 0 < s then some (node, s) else none
    else none

/-- The sort order of the result comparator (src/js/search.js lines
97-100): score descending, then name length ascending; the original
index (first component) breaks remaining ties, which is exactly the
guarantee of the stable JS `Array.prototype.sort`. -/
def rankLe (a b : Nat × DestNode × Nat) : Prop :=
  if a.2.2 = b.2.2 then
    if a.2.1.name.length = b.2.1.name.length then a.1 ≤ b.1
    else a.2.1.name.length < b.2.1.name.length
  else b.2.2 < a.2.2

instance : DecidableRel rankLe := fun a b => by
  unfold rankLe
  infer_instance

/-- The stable sort of the scored candidates, realised on index-tagged
candidates (see the header comment). -/
def rankedCandidates (rs : List (DestNode × Nat)) : List (Nat × DestNode × Nat) :=
  List.insertionSort rankLe rs.enum

/-- `searchDestinations(query, libraryData)` of src/js/search.js lines
17-103: the ranking engine. -/
def searchDestinations (cfg : SearchConfig) (query : List Char)
    (libraryData : Option LibraryData) : List DestNode :=
  match libraryData with
  | none => []
  | some lib =>
    let queryLower := trimL (toLowerL query)
    let results := scoredResults queryLower lib.nodes
    ((rankedCandidates results).take cfg.maxSuggestions).map fun x => x.2.1

/-- The markup inserted before a highlighted fragment. -/
def markOpen : List Char := strL "<mark class=\"search-highlight\">"

/-- The markup inserted after a highlighted fragment. -/
def markClose : List Char := strL "</mark>"

/-- The global case-insensitive literal replacement performed by
`name.replace(new RegExp(escaped, 'gi'), '<mark ...>$1</mark>')`: a
left-to-right scan; at each position, a case-insensitive occurrence of the
term is wrapped (the `$1` back-reference keeps the original casing) and
the scan resumes after it, otherwise one character is emitted. -/
def highlightScanF (term : List Char) : Nat → List Char → List Char
  | 0, l => l
  | _ + 1, [] => []
  | fuel + 1, c :: rest =>
    if term ≠ [] ∧ toLowerL ((c :: rest).take term.length) = toLowerL term then
      markOpen ++ (c :: rest).take term.length ++ markClose ++
        highlightScanF term fuel ((c :: rest).drop term.length)
    else c :: highlightScanF term fuel rest

/-- The scan with enough fuel for the whole input (each step consumes at
least one character, so `l.length` steps always suffice). -/
def highlightScan (term l : List Char) : List Char :=
  highlightScanF term l.length l

/-- `highlightSearchTerm(name, searchTerm)` of src/js/search.js lines
147-151.  Because `escapeRegExp` escapes every regex metacharacter, the
constructed pattern denotes the literal search term, so the replacement is
the case-insensitive literal scan `highlightScan`. -/
def highlightSearchTerm (name searchTerm : List Char) : List Char :=
  if searchTerm.length < 1 then name else highlightScan searchTerm name

/-- The character class `[.*+?^${}()|[\]\\]` of `escapeRegExp`
(src/app.js lines 571-573): every regex metacharacter. -/
def isRegexMeta (c : Char) : Bool :=
  c == '.' || c == '*' || c == '+' || c == '?' || c == '^' || c == '$' ||
  c.toNat == 123 || c.toNat == 125 || c == '(' || c == ')' || c == '|' ||
  c == '[' || c == ']' || c == '\\'

/-- `escapeRegExp(string)` of src/app.js lines 571-573: `'\\$&'` prefixes
every metacharacter with a backslash. -/
def escapeRegExp : List Char → List Char
  | [] => []
  | c :: rest =>
    if isRegexMeta c then '\\' :: c :: escapeRegExp rest
    else c :: escapeRegExp rest

/-- Interpretation of a regex pattern consisting only of literals and
backslash escapes: the string it matches literally. -/
def unescapeRegex : List Char → List Char
  | [] => []
  | c :: rest =>
    if c == '\\' then
      match rest with
      | [] => [c]
      | d :: rest2 => d :: unescapeRegex rest2
    else c :: unescapeRegex rest

/-- `searchDestinations` with heuristic 7 (the short-query fallback)
removed: the score goes straight from heuristic 6 to heuristic 8.  Used to
settle the claim that heuristic 7 is unreachable. -/
def scoreThrough8No7 (queryLower : List Char) (node : DestNode) : Nat :=
  let s := scoreThrough6 queryLower node
  if matchesPattern queryLower then
    max s (getPatternMatchScore (toLowerL node.name) queryLower)
  else s

/-- Final per-node score of the engine without heuristic 7. -/
def scoreNodeNo7 (queryLower : List Char) (node : DestNode) : Nat :=
  let s := scoreThrough8No7 queryLower node
  if s = 0 ∧ 3 ≤ queryLower.length then
    max s (getFuzzyMatchScore (toLowerL node.name) queryLower)
  else s

/-- Candidate list of the engine without heuristic 7. -/
def scoredResultsNo7 (queryLower : List Char) (nodes : List DestNode) :
    List (DestNode × Nat) :=
  nodes.filterMap fun node =>
    if node.type = strL "destination" then
      let s := scoreNodeNo7 queryLower node
      if 0 < s then some (node, s) else none
    else none

/-- The full engine without heuristic 7. -/
def searchDestinationsNo7 (cfg : SearchConfig) (query : List Char)
    (libraryData : Option LibraryData) : List DestNode :=
  match libraryData with
  | none => []
  | some lib =>
    let queryLower := trimL (toLowerL query)
    let results := scoredResultsNo7 queryLower lib.nodes
    ((rankedCandidates results).take cfg.maxSuggestions).map fun x => x.2.1

/-- Heuristic 1 in isolation: exact case-insensitive name match. -/
def h1val (q : List Char) (n : DestNode) : Nat :=
  if toLowerL n.name = q then 100 else 0

/-- Heuristic 2 in isolation: name starts with query. -/
def h2val (q : List Char) (n : DestNode) : Nat :=
  if q <+: toLowerL n.name then 95 else 0

/-- Heuristic 3 in isolation: some word of the name starts with query. -/
def h3val (q : List Char) (n : DestNode) : Nat :=
  if ∃ w ∈ splitWs (toLowerL n.name), q <+: w then 90 else 0

/-- Heuristic 4 in isolation: name contains query as substring. -/
def h4val (q : List Char) (n : DestNode) : Nat :=
  if q <:+: toLowerL n.name then 85 else 0

/-- Heuristic 5 in isolation: partial word match. -/
def h5val (q : List Char) (n : DestNode) : Nat :=
  if hasPartialWordMatch (toLowerL n.name) q then 80 else 0

/-- Heuristic 6 in isolation: the keyword score. -/
def h6val (q : List Char) (n : DestNode) : Nat :=
  keywordScore q n.search_keywords

/-- Heuristic 7 in isolation: the short-query fallback values. -/
def h7val (q : List Char) (n : DestNode) : Nat :=
  if q.length ≤ 3 then
    if ∃ w ∈ splitWs (toLowerL n.name), q <:+: w then 75
    else if q <:+: toLowerL n.name then 70
    else 0
  else 0

/-- Heuristic 8 in isolation: the room-code pattern score. -/
def h8val (q : List Char) (n : DestNode) : Nat :=
  if matchesPattern q then getPatternMatchScore (toLowerL n.name) q else 0

/-- Heuristic 9 in isolation: the fuzzy score, available for queries of
length at least three. -/
def h9val (q : List Char) (n : DestNode) : Nat :=
  if 3 ≤ q.length then getFuzzyMatchScore (toLowerL n.name) q else 0

/-- Concrete destination node "Room 2B" (spec section 8). -/
def room2B : DestNode :=
  { id := strL "f2-room2b", name := strL "Room 2B", type := strL "destination",
    floor := 2, search_keywords := [] }

/-- Concrete destination node "2nd Floor Break Room" (spec section 8). -/
def breakRoom2F : DestNode :=
  { id := strL "f2-break", name := strL "2nd Floor Break Room",
    type := strL "destination", floor := 2, search_keywords := [] }

/-- Concrete destination node "Lobby". -/
def lobbyNode : DestNode :=
  { id := strL "f1-lobby", name := strL "Lobby", type := strL "destination",
    floor := 1, search_keywords := [] }

/-- Concrete destination node "Library Commons" (spec section 8). -/
def libraryCommons : DestNode :=
  { id := strL "f1-commons", name := strL "Library Commons",
    type := strL "destination", floor := 1, search_keywords := [] }

/-- Proof-support description of one matrix row of `levenshteinDistance`:
the distances (in the reference formulation `levCore`, which consumes
reversed strings) between the prefixes of `str1` extending the processed
part `u` and the processed part `b` of `str2`. -/
def cellsSpec (u : List Char) : List Char → List Char → List Nat
  | [], b => [levCore u.reverse b.reverse]
  | c :: cs, b => levCore u.reverse b.reverse :: cellsSpec (u ++ [c]) cs b

/-- Edit scripts: `Edits a b n` holds when `a` can be transformed into `b`
using `n` single-character operations (substitutions, deletions,
insertions; `keep` is not an operation).  The Levenshtein distance is the
least such `n`. -/
inductive Edits : List Char → List Char → Nat → Prop
  | nil : Edits [] [] 0
  | keep {xs ys n} (c : Char) : Edits xs ys n → Edits (c :: xs) (c :: ys) n
  | subst {xs ys n} (a b : Char) : Edits xs ys n → Edits (a :: xs) (b :: ys) (n + 1)
  | del {xs ys n} (a : Char) : Edits xs ys n → Edits (a :: xs) ys (n + 1)
  | ins {xs ys n} (b : Char) : Edits xs ys n → Edits xs (b :: ys) (n + 1)

theorem splitWsGo_pieces :
    ∀ (l acc w : List Char),
      (w ∈ splitWsGo false l acc → w <:+: acc.reverse ++ l) ∧
      (w ∈ splitWsGo true l acc → w <:+: l) := by
  intro l
  induction l with
  | nil =>
    intro acc w
    refine ⟨fun hw => ?_, fun hw => ?_⟩
    · simp only [splitWsGo, List.mem_singleton] at hw
      subst hw
      simp
    · simp only [splitWsGo, List.mem_singleton] at hw
      subst hw
      exact List.nil_infix
  | cons c rest ih =>
    intro acc w
    refine ⟨fun hw => ?_, fun hw => ?_⟩
    · by_cases hc : isWsChar c
      · simp only [splitWsGo, hc, if_pos, List.mem_cons] at hw
        rcases hw with hw | hw
        · subst hw
          exact (List.prefix_append _ _).isInfix
        · exact ((ih [] w).2 hw).trans (List.suffix_cons c rest).isInfix
            |>.trans (List.suffix_append _ _).isInfix
      · have h2 := (ih (c :: acc) w).1
        simp only [splitWsGo, hc] at hw
        have h3 := h2 hw
        rwa [List.reverse_cons, List.append_assoc, List.singleton_append] at h3
    · by_cases hc : isWsChar c
      · simp only [splitWsGo, hc, if_pos] at hw
        exact ((ih acc w).2 hw).trans (List.suffix_cons c rest).isInfix
      · have h2 := (ih [c] w).1
        simp only [splitWsGo, hc] at hw
        have h3 := h2 hw
        simpa using h3

theorem splitWs_pieces (l w : List Char) (hw : w ∈ splitWs l) : w <:+: l := by
  have := (splitWsGo_pieces l [] w).1 hw
  simpa using this

theorem foldl_max_le {α : Type} (f : α → Nat) (c : Nat) :
    ∀ (l : List α) (acc : Nat), acc ≤ c → (∀ w ∈ l, f w ≤ c) →
      l.foldl (fun b w => max b (f w)) acc ≤ c := by
  intro l
  induction l with
  | nil => intro acc h _; simpa using h
  | cons x xs ih =>
    intro acc hacc hall
    simp only [List.foldl_cons]
    refine ih _ ?_ fun w hw => hall w (by simp [hw])
    have := hall x (by simp)
    omega

theorem foldl_max_shift {α : Type} (f : α → Nat) :
    ∀ (l : List α) (acc : Nat),
      l.foldl (fun b w => max b (f w)) acc =
        max acc (l.foldr (fun w b => max (f w) b) 0) := by
  intro l
  induction l with
  | nil => intro acc; simp
  | cons x xs ih =>
    intro acc
    simp only [List.foldl_cons, List.foldr_cons, ih]
    omega

theorem foldr_max_filter {α : Type} (f : α → Nat) (p : α → Bool)
    (hp : ∀ w, p w = false → f w = 0) :
    ∀ l : List α,
      l.foldr (fun w b => max (f w) b) 0 =
        (l.filter p).foldr (fun w b => max (f w) b) 0 := by
  intro l
  induction l with
  | nil => rfl
  | cons x xs ih =>
    by_cases hx : p x
    · simp only [List.foldr_cons, List.filter_cons, hx, if_pos, ih]
    · have hfx := hp x (by simpa using hx)
      simp only [List.foldr_cons, List.filter_cons, hx, Bool.false_eq_true, if_neg,
        not_false_iff, hfx, ih]
      omega

theorem patternLoop_le (q : List Char) : ∀ ps, patternLoop q ps ≤ 85 := by
  intro ps
  induction ps with
  | nil => simp [patternLoop]
  | cons p ps ih =>
    simp only [patternLoop]
    split_ifs <;> omega

theorem patternLoop_pos (q : List Char) :
    ∀ ps, patternLoop q ps = 0 ∨ 75 ≤ patternLoop q ps := by
  intro ps
  induction ps with
  | nil => simp [patternLoop]
  | cons p ps ih =>
    simp only [patternLoop]
    split_ifs <;> omega

theorem div_mul_sub_le (a m d : Nat) : a * (m - d) / m ≤ a := by
  rcases Nat.eq_zero_or_pos m with hm | hm
  · simp [hm]
  · calc a * (m - d) / m ≤ a * m / m :=
        Nat.div_le_div_right (Nat.mul_le_mul_left _ (Nat.sub_le _ _))
      _ = a := Nat.mul_div_cancel _ hm

theorem wordFuzzyScore_le (q w : List Char) : wordFuzzyScore q w ≤ 60 := by
  unfold wordFuzzyScore
  dsimp only
  split_ifs with h1 h2
  · exact div_mul_sub_le 60 _ _
  · omega
  · omega

theorem getFuzzyMatchScore_le (text q : List Char) : getFuzzyMatchScore text q ≤ 60 := by
  unfold getFuzzyMatchScore
  exact foldl_max_le _ _ _ _ (by omega) fun w _ => wordFuzzyScore_le q w

theorem keywordScore_le (q : List Char) (kws : List (List Char)) :
    keywordScore q kws ≤ 75 := by
  unfold keywordScore
  suffices h : ∀ (l : List (List Char)) (acc : Nat), acc ≤ 75 →
      (l.foldl (fun acc kw =>
        let kwLower := toLowerL kw
        if kwLower = q then max acc 75
        else if q <+: kwLower then max acc 70
        else if q <:+: kwLower then max acc 65
        else acc) acc) ≤ 75 from h kws 0 (by omega)
  intro l
  induction l with
  | nil => intro acc h; simpa using h
  | cons kw l ih =>
    intro acc h
    simp only [List.foldl_cons]
    apply ih
    dsimp only
    split_ifs <;> omega

theorem keywordScore_pos (q : List Char) (kws : List (List Char)) :
    keywordScore q kws = 0 ∨ 65 ≤ keywordScore q kws := by
  unfold keywordScore
  suffices h : ∀ (l : List (List Char)) (acc : Nat), acc = 0 ∨ 65 ≤ acc →
      (l.foldl (fun acc kw =>
        let kwLower := toLowerL kw
        if kwLower = q then max acc 75
        else if q <+: kwLower then max acc 70
        else if q <:+: kwLower then max acc 65
        else acc) acc) = 0 ∨
      65 ≤ (l.foldl (fun acc kw =>
        let kwLower := toLowerL kw
        if kwLower = q then max acc 75
        else if q <+: kwLower then max acc 70
        else if q <:+: kwLower then max acc 65
        else acc) acc) from h kws 0 (by omega)
  intro l
  induction l with
  | nil => intro acc h; simpa using h
  | cons kw l ih =>
    intro acc h
    simp only [List.foldl_cons]
    apply ih
    dsimp only
    split_ifs <;> omega

theorem chainScore_eq_max (q nl : List Char) (ws : List (List Char)) :
    chainScore q nl ws =
      max (max (max (max (if nl = q then 100 else 0) (if q <+: nl then 95 else 0))
        (if ∃ w ∈ ws, q <+: w then 90 else 0)) (if q <:+: nl then 85 else 0))
        (if hasPartialWordMatch nl q then 80 else 0) := by
  unfold chainScore
  split_ifs <;> omega

theorem chainScore_pos (q nl : List Char) (ws : List (List Char)) :
    chainScore q nl ws = 0 ∨ 80 ≤ chainScore q nl ws := by
  unfold chainScore
  split_ifs <;> omega

theorem chainScore_ge_of_infix (q nl : List Char) (ws : List (List Char))
    (h : q <:+: nl) : 85 ≤ chainScore q nl ws := by
  unfold chainScore
  split_ifs with h1 h2 h3 h4 h5 <;> first | omega | exact absurd h h4

theorem chainScore_zero (q nl : List Char) (ws : List (List Char))
    (h : chainScore q nl ws = 0) : ¬ q <:+: nl := by
  unfold chainScore at h
  split_ifs at h <;> first | omega | assumption

theorem scoreThrough6_eq (q : List Char) (n : DestNode) :
    scoreThrough6 q n =
      max (chainScore q (toLowerL n.name) (splitWs (toLowerL n.name)))
        (keywordScore q n.search_keywords) := rfl

theorem h7val_infix (q : List Char) (n : DestNode) (h : h7val q n ≠ 0) :
    q <:+: toLowerL n.name := by
  unfold h7val at h
  split_ifs at h with hl hw hi
  · obtain ⟨w, hwmem, hqw⟩ := hw
    exact hqw.trans (splitWs_pieces _ _ hwmem)
  · exact hi
  · exact absurd rfl h
  · exact absurd rfl h

theorem h7val_le (q : List Char) (n : DestNode) : h7val q n ≤ 75 := by
  unfold h7val
  split_ifs <;> omega

theorem h7val_pos (q : List Char) (n : DestNode) :
    h7val q n = 0 ∨ 70 ≤ h7val q n := by
  unfold h7val
  split_ifs <;> omega

theorem scoreThrough7_eq_max (q : List Char) (n : DestNode) :
    scoreThrough7 q n = max (scoreThrough6 q n) (h7val q n) := by
  unfold scoreThrough7
  dsimp only
  by_cases hl : q.length ≤ 3
  · by_cases hs : scoreThrough6 q n = 0
    · rw [if_pos ⟨hl, hs⟩, hs]
      unfold h7val
      rw [if_pos hl]
      split_ifs <;> omega
    · rw [if_neg fun hc => hs hc.2]
      by_cases h7 : h7val q n = 0
      · rw [h7]; omega
      · have hinf := h7val_infix q n h7
        have hch := chainScore_ge_of_infix q (toLowerL n.name)
          (splitWs (toLowerL n.name)) hinf
        have h7le := h7val_le q n
        have hs6 : 85 ≤ scoreThrough6 q n := by
          rw [scoreThrough6_eq]
          omega
        omega
  · rw [if_neg fun hc => hl hc.1]
    unfold h7val
    rw [if_neg hl]
    omega

theorem h8val_pos (q : List Char) (n : DestNode) :
    h8val q n = 0 ∨ 75 ≤ h8val q n := by
  unfold h8val
  split_ifs
  · unfold getPatternMatchScore
    exact patternLoop_pos q _
  · omega

theorem h8val_le (q : List Char) (n : DestNode) : h8val q n ≤ 85 := by
  unfold h8val
  split_ifs
  · unfold getPatternMatchScore
    exact patternLoop_le q _
  · omega

theorem scoreThrough8_eq_max (q : List Char) (n : DestNode) :
    scoreThrough8 q n = max (scoreThrough7 q n) (h8val q n) := by
  unfold scoreThrough8 h8val
  dsimp only
  split_ifs
  · rfl
  · omega

theorem scoreThrough8_pos (q : List Char) (n : DestNode) :
    scoreThrough8 q n = 0 ∨ 65 ≤ scoreThrough8 q n := by
  have e8 := scoreThrough8_eq_max q n
  have e7 := scoreThrough7_eq_max q n
  have e6 := scoreThrough6_eq q n
  have hc := chainScore_pos q (toLowerL n.name) (splitWs (toLowerL n.name))
  have hk := keywordScore_pos q n.search_keywords
  have h7 := h7val_pos q n
  have h8 := h8val_pos q n
  omega

theorem h9val_le (q : List Char) (n : DestNode) : h9val q n ≤ 60 := by
  unfold h9val
  split_ifs
  · exact getFuzzyMatchScore_le _ _
  · omega

theorem scoreNode_eq_max (q : List Char) (n : DestNode) :
    scoreNode q n = max (scoreThrough8 q n) (h9val q n) := by
  unfold scoreNode h9val
  dsimp only
  by_cases h : scoreThrough8 q n = 0 ∧ 3 ≤ q.length
  · rw [if_pos h, if_pos h.2, h.1]
  · rw [if_neg h]
    rcases Decidable.em (scoreThrough8 q n = 0) with h0 | h0
    · have hlen : ¬ 3 ≤ q.length := fun hc => h ⟨h0, hc⟩
      rw [if_neg hlen]
      omega
    · have h65 := (scoreThrough8_pos q n).resolve_left h0
      have h60 := getFuzzyMatchScore_le (toLowerL n.name) q
      split_ifs <;> omega

theorem levCore_nil_left (ys : List Char) : levCore [] ys = ys.length := by
  rw [levCore]

theorem levCore_nil_right (xs : List Char) : levCore xs [] = xs.length := by
  cases xs with
  | nil => rw [levCore]
  | cons x xs' =>
    rw [levCore]
    simp

theorem levCore_cons_cons (x y : Char) (xs ys : List Char) :
    levCore (x :: xs) (y :: ys) =
      if y == x then levCore xs ys
      else Nat.min (Nat.min (levCore xs ys + 1) (levCore xs (y :: ys) + 1))
        (levCore (x :: xs) ys + 1) := by
  rw [levCore]

theorem cellsSpec_head (u cs b : List Char) :
    (cellsSpec u cs b).headD 0 = levCore u.reverse b.reverse := by
  cases cs <;> rfl

theorem cellsSpec_cons (u cs b : List Char) :
    cellsSpec u cs b = levCore u.reverse b.reverse :: (cellsSpec u cs b).tail := by
  cases cs <;> rfl

theorem levRowAux_spec :
    ∀ (cs u : List Char) (c2 : Char) (p : List Char),
      levRowAux c2 cs (cellsSpec u cs p) (levCore u.reverse (c2 :: p.reverse)) =
        (cellsSpec u cs (p ++ [c2])).tail := by
  intro cs
  induction cs with
  | nil => intro u c2 p; rfl
  | cons c1 cs ih =>
    intro u c2 p
    have hrev1 : (u ++ [c1]).reverse = c1 :: u.reverse := by simp
    have hrev2 : (p ++ [c2]).reverse = c2 :: p.reverse := by simp
    simp only [cellsSpec, levRowAux]
    rw [cellsSpec_head]
    have hv : (if c2 == c1 then levCore u.reverse p.reverse
        else Nat.min (Nat.min (levCore u.reverse p.reverse + 1)
          (levCore u.reverse (c2 :: p.reverse) + 1))
          ((levCore (u ++ [c1]).reverse p.reverse) + 1)) =
        levCore (u ++ [c1]).reverse (p ++ [c2]).reverse := by
      rw [hrev1, hrev2, levCore_cons_cons]
    rw [hv]
    have hleft : levCore (u ++ [c1]).reverse (p ++ [c2]).reverse =
        levCore (u ++ [c1]).reverse (c2 :: p.reverse) := by rw [hrev2]
    rw [hleft, ih (u ++ [c1]) c2 p, List.tail_cons]
    rw [← hleft, ← cellsSpec_cons]

theorem levRowsGo_spec :
    ∀ (s2 str1 p : List Char),
      levRowsGo str1 s2 (cellsSpec [] str1 p) = cellsSpec [] str1 (p ++ s2) := by
  intro s2
  induction s2 with
  | nil => intro str1 p; simp [levRowsGo]
  | cons c2 cs2 ih =>
    intro str1 p
    simp only [levRowsGo]
    have hfirst : (cellsSpec [] str1 p).headD 0 + 1 =
        levCore ([] : List Char).reverse (c2 :: p.reverse) := by
      rw [cellsSpec_head]
      simp [levCore_nil_left]
    rw [hfirst, levRowAux_spec]
    have hrev2 : (p ++ [c2]).reverse = c2 :: p.reverse := by simp
    have hhead : levCore ([] : List Char).reverse (c2 :: p.reverse) =
        levCore ([] : List Char).reverse (p ++ [c2]).reverse := by rw [hrev2]
    rw [hhead, ← cellsSpec_cons, ih str1 (p ++ [c2]), List.append_assoc]
    rfl

theorem cellsSpec_init :
    ∀ (cs u : List Char), cellsSpec u cs [] = List.range' u.length (cs.length + 1) := by
  intro cs
  induction cs with
  | nil =>
    intro u
    simp [cellsSpec, levCore_nil_right, List.range']
  | cons c cs ih =>
    intro u
    have h2 := ih (u ++ [c])
    simp only [cellsSpec, levCore_nil_right, List.length_reverse, h2, List.length_append,
      List.length_singleton, List.length_cons, List.range']
    rw [List.reverse_nil, levCore_nil_right]
    simp

theorem cellsSpec_getLast :
    ∀ (cs u b : List Char),
      (cellsSpec u cs b).getLastD 0 = levCore (u ++ cs).reverse b.reverse := by
  intro cs
  induction cs with
  | nil => intro u b; simp [cellsSpec]
  | cons c cs ih =>
    intro u b
    have h1 := cellsSpec_cons (u ++ [c]) cs b
    have h2 := ih (u ++ [c]) b
    rw [h1, List.getLastD_cons] at h2
    simp only [cellsSpec]
    rw [h1, List.getLastD_cons, List.getLastD_cons, h2]
    congr 1
    simp

theorem lev_eq_levCore (str1 str2 : List Char) :
    levenshteinDistance str1 str2 = levCore str1.reverse str2.reverse := by
  unfold levenshteinDistance
  have hinit : List.range (str1.length + 1) = cellsSpec [] str1 [] := by
    rw [cellsSpec_init]
    simp [List.range_eq_range']
  rw [hinit, levRowsGo_spec]
  have h := cellsSpec_getLast str1 [] str2
  simpa using h

theorem edits_nil_left : ∀ ys : List Char, Edits [] ys ys.length := by
  intro ys
  induction ys with
  | nil => exact Edits.nil
  | cons y ys ih => exact Edits.ins y ih

theorem edits_nil_right : ∀ xs : List Char, Edits xs [] xs.length := by
  intro xs
  induction xs with
  | nil => exact Edits.nil
  | cons x xs ih => exact Edits.del x ih

theorem edits_exists_aux :
    ∀ (k : Nat) (xs ys : List Char), xs.length + ys.length ≤ k →
      Edits xs ys (levCore xs ys) := by
  intro k
  induction k with
  | zero =>
    intro xs ys h
    have hx : xs = [] := List.eq_nil_of_length_eq_zero (by omega)
    have hy : ys = [] := List.eq_nil_of_length_eq_zero (by omega)
    subst hx
    subst hy
    rw [levCore_nil_left]
    exact Edits.nil
  | succ k ih =>
    intro xs ys hk
    cases xs with
    | nil =>
      rw [levCore_nil_left]
      exact edits_nil_left ys
    | cons x xs' =>
      cases ys with
      | nil =>
        rw [levCore_nil_right]
        exact edits_nil_right _
      | cons y ys' =>
        rw [levCore_cons_cons]
        by_cases he : y == x
        · rw [if_pos he]
          have hyx : y = x := by simpa using he
          subst hyx
          exact Edits.keep y (ih xs' ys' (by simp at hk; omega))
        · rw [if_neg he]
          have h1 := ih xs' ys' (by simp at hk; omega)
          have h2 := ih xs' (y :: ys') (by simp at hk ⊢; omega)
          have h3 := ih (x :: xs') ys' (by simp at hk ⊢; omega)
          have hcases : Nat.min (Nat.min (levCore xs' ys' + 1)
              (levCore xs' (y :: ys') + 1)) (levCore (x :: xs') ys' + 1) =
              levCore xs' ys' + 1 ∨
              Nat.min (Nat.min (levCore xs' ys' + 1)
              (levCore xs' (y :: ys') + 1)) (levCore (x :: xs') ys' + 1) =
              levCore xs' (y :: ys') + 1 ∨
              Nat.min (Nat.min (levCore xs' ys' + 1)
              (levCore xs' (y :: ys') + 1)) (levCore (x :: xs') ys' + 1) =
              levCore (x :: xs') ys' + 1 := by
            simp only [Nat.min_def]
            split_ifs <;> omega
          rcases hcases with h | h | h <;> rw [h]
          · exact Edits.subst x y h1
          · exact Edits.del x h2
          · exact Edits.ins y h3

theorem edits_levCore (xs ys : List Char) : Edits xs ys (levCore xs ys) :=
  edits_exists_aux (xs.length + ys.length) xs ys le_rfl

theorem levCore_adj :
    ∀ (k : Nat) (xs ys : List Char), xs.length + ys.length ≤ k →
      (∀ x, levCore xs ys ≤ levCore (x :: xs) ys + 1) ∧
      (∀ x, levCore (x :: xs) ys ≤ levCore xs ys + 1) ∧
      (∀ y, levCore xs ys ≤ levCore xs (y :: ys) + 1) ∧
      (∀ y, levCore xs (y :: ys) ≤ levCore xs ys + 1) := by
  intro k
  induction k with
  | zero =>
    intro xs ys h
    have hx : xs = [] := List.eq_nil_of_length_eq_zero (by omega)
    have hy : ys = [] := List.eq_nil_of_length_eq_zero (by omega)
    subst hx
    subst hy
    refine ⟨fun x => ?_, fun x => ?_, fun y => ?_, fun y => ?_⟩ <;>
      simp [levCore_nil_left, levCore_nil_right]
  | succ k ih =>
    intro xs ys hk
    refine ⟨fun x => ?_, fun x => ?_, fun y => ?_, fun y => ?_⟩
    · -- A1 : levCore xs ys ≤ levCore (x :: xs) ys + 1
      cases ys with
      | nil =>
        rw [levCore_nil_right, levCore_nil_right]
        simp only [List.length_cons]
        omega
      | cons y ys' =>
        rw [levCore_cons_cons]
        by_cases he : y == x
        · rw [if_pos he]
          have hB2 := (ih xs ys' (by simp at hk ⊢; omega)).2.2.2 y
          omega
        · rw [if_neg he]
          have hB2 := (ih xs ys' (by simp at hk ⊢; omega)).2.2.2 y
          have hA1 := (ih xs ys' (by simp at hk ⊢; omega)).1 x
          simp only [Nat.min_def]
          split_ifs <;> omega
    · -- A2 : levCore (x :: xs) ys ≤ levCore xs ys + 1
      cases ys with
      | nil =>
        rw [levCore_nil_right, levCore_nil_right]
        simp only [List.length_cons]
        omega
      | cons y ys' =>
        rw [levCore_cons_cons]
        by_cases he : y == x
        · rw [if_pos he]
          have hB1 := (ih xs ys' (by simp at hk ⊢; omega)).2.2.1 y
          omega
        · rw [if_neg he]
          simp only [Nat.min_def]
          split_ifs <;> omega
    · -- B1 : levCore xs ys ≤ levCore xs (y :: ys) + 1
      cases xs with
      | nil =>
        rw [levCore_nil_left, levCore_nil_left]
        simp only [List.length_cons]
        omega
      | cons x xs' =>
        rw [levCore_cons_cons]
        by_cases he : y == x
        · rw [if_pos he]
          have hA2 := (ih xs' ys (by simp at hk ⊢; omega)).2.1 x
          omega
        · rw [if_neg he]
          have hA2 := (ih xs' ys (by simp at hk ⊢; omega)).2.1 x
          have hB1 := (ih xs' ys (by simp at hk ⊢; omega)).2.2.1 y
          simp only [Nat.min_def]
          split_ifs <;> omega
    · -- B2 : levCore xs (y :: ys) ≤ levCore xs ys + 1
      cases xs with
      | nil =>
        rw [levCore_nil_left, levCore_nil_left]
        simp only [List.length_cons]
        omega
      | cons x xs' =>
        rw [levCore_cons_cons]
        by_cases he : y == x
        · rw [if_pos he]
          have hA1 := (ih xs' ys (by simp at hk ⊢; omega)).1 x
          omega
        · rw [if_neg he]
          simp only [Nat.min_def]
          split_ifs <;> omega

theorem levCore_le_edits : ∀ {xs ys : List Char} {n : Nat},
    Edits xs ys n → levCore xs ys ≤ n := by
  intro xs ys n h
  induction h with
  | nil => simp [levCore_nil_left]
  | keep c h ih =>
    rw [levCore_cons_cons, if_pos (by simp)]
    exact ih
  | subst a b h ih =>
    rw [levCore_cons_cons]
    split_ifs
    · omega
    · simp only [Nat.min_def]
      split_ifs <;> omega
  | del a h ih =>
    rename_i xs' ys' n'
    have hA2 := (levCore_adj (xs'.length + ys'.length) xs' ys' le_rfl).2.1 a
    omega
  | ins b h ih =>
    rename_i xs' ys' n'
    have hB2 := (levCore_adj (xs'.length + ys'.length) xs' ys' le_rfl).2.2.2 b
    omega

theorem Edits.keep_snoc {xs ys : List Char} {n : Nat} (h : Edits xs ys n) (c : Char) :
    Edits (xs ++ [c]) (ys ++ [c]) n := by
  induction h with
  | nil => simpa using Edits.keep c Edits.nil
  | keep d h ih => simpa using Edits.keep d ih
  | subst a b h ih => simpa using Edits.subst a b ih
  | del a h ih => simpa using Edits.del a ih
  | ins b h ih => simpa using Edits.ins b ih

theorem Edits.subst_snoc {xs ys : List Char} {n : Nat} (h : Edits xs ys n)
    (a b : Char) : Edits (xs ++ [a]) (ys ++ [b]) (n + 1) := by
  induction h with
  | nil => simpa using Edits.subst a b Edits.nil
  | keep d h ih => simpa using Edits.keep d ih
  | subst d e h ih => simpa using Edits.subst d e ih
  | del d h ih => simpa using Edits.del d ih
  | ins e h ih => simpa using Edits.ins e ih

theorem Edits.del_snoc {xs ys : List Char} {n : Nat} (h : Edits xs ys n)
    (a : Char) : Edits (xs ++ [a]) ys (n + 1) := by
  induction h with
  | nil => simpa using Edits.del a Edits.nil
  | keep d h ih => simpa using Edits.keep d ih
  | subst d e h ih => simpa using Edits.subst d e ih
  | del d h ih => simpa using Edits.del d ih
  | ins e h ih => simpa using Edits.ins e ih

theorem Edits.ins_snoc {xs ys : List Char} {n : Nat} (h : Edits xs ys n)
    (b : Char) : Edits xs (ys ++ [b]) (n + 1) := by
  induction h with
  | nil => simpa using Edits.ins b Edits.nil
  | keep d h ih => simpa using Edits.keep d ih
  | subst d e h ih => simpa using Edits.subst d e ih
  | del d h ih => simpa using Edits.del d ih
  | ins e h ih => simpa using Edits.ins e ih

theorem Edits.rev {xs ys : List Char} {n : Nat} (h : Edits xs ys n) :
    Edits xs.reverse ys.reverse n := by
  induction h with
  | nil => exact Edits.nil
  | keep c h ih => simpa [List.reverse_cons] using ih.keep_snoc c
  | subst a b h ih => simpa [List.reverse_cons] using ih.subst_snoc a b
  | del a h ih => simpa [List.reverse_cons] using ih.del_snoc a
  | ins b h ih => simpa [List.reverse_cons] using ih.ins_snoc b

theorem patternLoop_find (q : List Char) :
    ∀ ps : List (List Char),
      patternLoop q ps =
        match ps.find? (fun p => decide (q <:+: toLowerL p)) with
        | some p => if toLowerL p = q then 85 else 75
        | none => 0 := by
  intro ps
  induction ps with
  | nil => rfl
  | cons p ps ih =>
    simp only [patternLoop]
    by_cases he : toLowerL p = q
    · have hinf : q <:+: toLowerL p := by
        rw [he]
      rw [if_pos he, List.find?_cons_of_pos _ (by simpa using hinf)]
      simp [he]
    · rw [if_neg he]
      by_cases hi : q <:+: toLowerL p
      · rw [if_pos hi, List.find?_cons_of_pos _ (by simpa using hi)]
        simp [he]
      · rw [if_neg hi, List.find?_cons_of_neg _ (by simpa using hi), ih]

theorem rankLe_total : ∀ a b : Nat × DestNode × Nat, rankLe a b ∨ rankLe b a := by
  intro a b
  unfold rankLe
  split_ifs <;> omega

theorem rankLe_trans :
    ∀ a b c : Nat × DestNode × Nat, rankLe a b → rankLe b c → rankLe a c := by
  intro a b c hab hbc
  unfold rankLe at *
  split_ifs at * <;> omega

instance : IsTotal (Nat × DestNode × Nat) rankLe := ⟨rankLe_total⟩

instance : IsTrans (Nat × DestNode × Nat) rankLe := ⟨fun a b c => rankLe_trans a b c⟩

theorem rankLe_strict (a b : Nat × DestNode × Nat) (h : rankLe a b) (hne : a.1 ≠ b.1) :
    b.2.2 < a.2.2 ∨ (a.2.2 = b.2.2 ∧ (a.2.1.name.length < b.2.1.name.length ∨
      (a.2.1.name.length = b.2.1.name.length ∧ a.1 < b.1))) := by
  unfold rankLe at h
  split_ifs at h with h1 h2
  · exact Or.inr ⟨h1, Or.inr ⟨h2, lt_of_le_of_ne h hne⟩⟩
  · exact Or.inr ⟨h1, Or.inl h⟩
  · exact Or.inl h

theorem scoreNode_empty_query_pos (n : DestNode) : 0 < scoreNode [] n := by
  have hchain : 95 ≤ chainScore [] (toLowerL n.name) (splitWs (toLowerL n.name)) := by
    unfold chainScore
    split_ifs with h1 h2 <;> first | omega | exact absurd List.nil_prefix h2
  have h6 : 95 ≤ scoreThrough6 [] n := by
    rw [scoreThrough6_eq]
    omega
  have e7 := scoreThrough7_eq_max [] n
  have e8 := scoreThrough8_eq_max [] n
  have e9 := scoreNode_eq_max [] n
  omega

theorem scoredResults_length_all_pos (q : List Char) (hpos : ∀ n, 0 < scoreNode q n) :
    ∀ nodes : List DestNode,
      (scoredResults q nodes).length =
        nodes.countP (fun n => decide (n.type = strL "destination")) := by
  intro nodes
  induction nodes with
  | nil => rfl
  | cons n nodes ih =>
    unfold scoredResults at ih ⊢
    rw [List.filterMap_cons]
    by_cases ht : n.type = strL "destination"
    · have hf : (if n.type = strL "destination" then
          (let s := scoreNode q n
           if 0 < s then some (n, s) else none)
          else none) = some (n, scoreNode q n) := by
        rw [if_pos ht]
        dsimp only
        rw [if_pos (hpos n)]
      rw [hf, List.length_cons, List.countP_cons, ih]
      simp [ht]
    · have hf : (if n.type = strL "destination" then
          (let s := scoreNode q n
           if 0 < s then some (n, s) else none)
          else none) = none := by
        rw [if_neg ht]
      rw [hf, List.countP_cons, ih]
      simp [ht]

theorem rankedCandidates_length (rs : List (DestNode × Nat)) :
    (rankedCandidates rs).length = rs.length := by
  unfold rankedCandidates
  rw [(List.perm_insertionSort rankLe _).length_eq, List.enum_length]

theorem highlightScanF_no_occurrence :
    ∀ (fuel : Nat) (l term : List Char), l.length ≤ fuel → term ≠ [] →
      ¬ (toLowerL term <:+: toLowerL l) → highlightScanF term fuel l = l := by
  intro fuel
  induction fuel with
  | zero => intro l term _ _ _; rfl
  | succ fuel ih =>
    intro l term hlen hterm hninf
    cases l with
    | nil => rfl
    | cons c rest =>
      have hcond : ¬ (term ≠ [] ∧
          toLowerL ((c :: rest).take term.length) = toLowerL term) := by
        rintro ⟨-, heq⟩
        apply hninf
        have hpre : toLowerL term = (toLowerL (c :: rest)).take term.length := by
          rw [← heq]
          unfold toLowerL
          rw [List.map_take]
        rw [hpre]
        exact (List.take_prefix _ _).isInfix
      have hrest : ¬ (toLowerL term <:+: toLowerL rest) := by
        intro hinf
        apply hninf
        unfold toLowerL at hinf ⊢
        simp only [List.map_cons]
        exact hinf.trans (List.suffix_cons _ _).isInfix
      simp only [highlightScanF]
      rw [if_neg hcond, ih rest term (by simp at hlen; omega) hterm hrest]

theorem highlight_no_occurrence (name q : List Char) (hq : q ≠ [])
    (h : ¬ (toLowerL q <:+: toLowerL name)) :
    highlightSearchTerm name q = name := by
  unfold highlightSearchTerm
  have hlen : ¬ (q.length < 1) := by
    cases q with
    | nil => exact absurd rfl hq
    | cons a l => simp
  rw [if_neg hlen]
  exact highlightScanF_no_occurrence _ _ _ le_rfl hq h

theorem unescape_escape (s : List Char) : unescapeRegex (escapeRegExp s) = s := by
  induction s with
  | nil => rfl
  | cons c rest ih =>
    by_cases hm : isRegexMeta c
    · simp only [escapeRegExp, hm, if_pos]
      simp only [unescapeRegex, beq_self_eq_true, if_pos]
      rw [ih]
    · have hcb : (c == '\\') = false := by
        rcases Bool.eq_false_or_eq_true (c == '\\') with hb | hb
        · exfalso
          apply hm
          have hc : c = '\\' := by simpa using hb
          rw [hc]
          rfl
        · exact hb
      rw [show escapeRegExp (c :: rest) = c :: escapeRegExp rest from by
        simp only [escapeRegExp]
        rw [if_neg (by simpa using hm)]]
      rw [show unescapeRegex (c :: escapeRegExp rest) =
          c :: unescapeRegex (escapeRegExp rest) from by
        unfold unescapeRegex
        rw [if_neg (by simp [hcb])]
        rw [unescapeRegex.eq_def]]
      rw [ih]

theorem scoreThrough6_zero_no_match (q : List Char) (n : DestNode)
    (h : scoreThrough6 q n = 0) :
    (∀ w ∈ splitWs (toLowerL n.name), ¬ q <:+: w) ∧ ¬ q <:+: toLowerL n.name := by
  have e6 := scoreThrough6_eq q n
  have hch : chainScore q (toLowerL n.name) (splitWs (toLowerL n.name)) = 0 := by
    omega
  have hni := chainScore_zero _ _ _ hch
  exact ⟨fun w hw hqw => hni (hqw.trans (splitWs_pieces _ _ hw)), hni⟩

theorem scoreThrough7_eq_6 (q : List Char) (n : DestNode) :
    scoreThrough7 q n = scoreThrough6 q n := by
  unfold scoreThrough7
  dsimp only
  split_ifs with h1 hw hi
  · obtain ⟨w, hwm, hq⟩ := hw
    exact absurd hq ((scoreThrough6_zero_no_match q n h1.2).1 w hwm)
  · exact absurd hi (scoreThrough6_zero_no_match q n h1.2).2
  · exact h1.2.symm
  · rfl

theorem scoreThrough8No7_eq_8 (q : List Char) (n : DestNode) :
    scoreThrough8No7 q n = scoreThrough8 q n := by
  unfold scoreThrough8No7 scoreThrough8
  rw [scoreThrough7_eq_6]

theorem scoreNodeNo7_eq (q : List Char) (n : DestNode) :
    scoreNodeNo7 q n = scoreNode q n := by
  unfold scoreNodeNo7 scoreNode
  rw [scoreThrough8No7_eq_8]

theorem scoredResultsNo7_eq (q : List Char) (nodes : List DestNode) :
    scoredResultsNo7 q nodes = scoredResults q nodes := by
  unfold scoredResultsNo7 scoredResults
  simp only [scoreNodeNo7_eq]

theorem searchDestinationsNo7_eq (cfg : SearchConfig) (query : List Char)
    (lib : Option LibraryData) :
    searchDestinationsNo7 cfg query lib = searchDestinations cfg query lib := by
  unfold searchDestinationsNo7 searchDestinations
  cases lib with
  | none => rfl
  | some l => simp only [scoredResultsNo7_eq]

/-- C1 (corrected): the claim says the engine short-circuits on a query
that is empty after trimming and returns the empty sequence.  It does not:
`searchDestinations` has no empty-query check (the guard lives in the UI
caller `handleSearch`), and an empty trimmed query makes every destination
node match via the starts-with heuristic.  Concretely, the whitespace
query " " against a library with one destination node returns that node,
not the empty sequence. -/
theorem C1_empty_query_counterexample :
    trimL (toLowerL (strL " ")) = [] ∧
    searchDestinations ⟨6⟩ (strL " ") (some ⟨[lobbyNode]⟩) = [lobbyNode] ∧
    searchDestinations ⟨6⟩ (strL " ") (some ⟨[lobbyNode]⟩) ≠ [] := by
  decide

/-- C1 (amended): for a query that is empty after trimming, every
destination node scores at least 95 (exact-name 100 for an empty name,
otherwise starts-with 95), so the engine returns
min(maxSuggestions, number of destination nodes) nodes rather than the
empty sequence; the empty-query short-circuit belongs to the UI caller,
not the engine. -/
theorem C1_empty_query_amended (cfg : SearchConfig) (lib : LibraryData)
    (query : List Char) (h : trimL (toLowerL query) = []) :
    (searchDestinations cfg query (some lib)).length =
      min cfg.maxSuggestions
        (lib.nodes.countP fun n => decide (n.type = strL "destination")) := by
  have heq : searchDestinations cfg query (some lib) =
      ((rankedCandidates (scoredResults (trimL (toLowerL query)) lib.nodes)).take
        cfg.maxSuggestions).map (fun x => x.2.1) := rfl
  rw [heq, h, List.length_map, List.length_take, rankedCandidates_length,
    scoredResults_length_all_pos [] scoreNode_empty_query_pos lib.nodes]

/-- Witness for C1 (amended) at a concrete library and the whitespace
query " ". -/
theorem C1_empty_query_witness :
    (searchDestinations ⟨6⟩ (strL " ") (some ⟨[lobbyNode, room2B]⟩)).length =
      min 6 ([lobbyNode, room2B].countP fun n => decide (n.type = strL "destination")) :=
  C1_empty_query_amended ⟨6⟩ ⟨[lobbyNode, room2B]⟩ (strL " ") (by decide)

/-- C2 (corrected): the claim says query "2b" scores node "Room 2B" at
exactly 85 via the pattern heuristic.  In fact heuristic 3 (some word of
the name starts with the query) fires first with 90, and the pattern
heuristic's 85 is absorbed by the running maximum: the final score is 90,
not 85. -/
theorem C2_room2b_counterexample :
    trimL (toLowerL (strL "2b")) = strL "2b" ∧
    scoreNode (strL "2b") room2B ≠ 85 := by
  decide

/-- C2 (amended): query "2b" scores "Room 2B" at exactly 90 (word
starts-with heuristic; the pattern heuristic's 85 does not raise the
maximum), while "2nd Floor Break Room" scores 0 for this query and is
never returned, so "Room 2B" trivially ranks above it: the engine returns
only the "Room 2B" node. -/
theorem C2_room2b_amended :
    scoreNode (strL "2b") room2B = 90 ∧
    scoreNode (strL "2b") breakRoom2F = 0 ∧
    searchDestinations ⟨6⟩ (strL "2b") (some ⟨[breakRoom2F, room2B]⟩) = [room2B] := by
  decide

/-- C3 (corrected): the claim says an exact extracted-pattern match always
contributes 85, taking precedence over a substring-contains at 75
regardless of the order of the patterns in the name.  It does not: the
loop in `getPatternMatchScore` returns at the first pattern that contains
the query.  In the name "x2by 2b" the extracted patterns are ["x2by",
"2b"]; "2b" is an exact match of the query "2b", yet the score is 75,
because the earlier token "x2by" merely contains the query. -/
theorem C3_pattern_order_counterexample :
    matchesPattern (strL "2b") = true ∧
    strL "2b" ∈ extractPatterns (strL "x2by 2b") ∧
    toLowerL (strL "2b") = strL "2b" ∧
    getPatternMatchScore (strL "x2by 2b") (strL "2b") = 75 := by
  decide

/-- C3 (amended): the pattern heuristic is decided by the FIRST extracted
pattern (in name order) that contains the query: 85 when that first such
token equals the case-folded query exactly, 75 otherwise, and 0 when no
token contains the query.  A later exact token cannot override an earlier
containing token. -/
theorem C3_pattern_order_amended (text q : List Char) :
    getPatternMatchScore text q =
      match (extractPatterns text).find? (fun p => decide (q <:+: toLowerL p)) with
      | some p => if toLowerL p = q then 85 else 75
      | none => 0 :=
  patternLoop_find q (extractPatterns text)

/-- C4 (confirmed): the returned sequence is the scored candidate list
sorted by descending score, ties broken by ascending name length, with
ties on both preserving node load order (witnessed by the strictly
increasing original indices in the sorted, index-tagged candidate list),
truncated to `maxSuggestions` elements; its length is exactly
min(maxSuggestions, number of matching nodes), so 20 matching nodes with
maxSuggestions = 6 yield exactly the 6 highest-ranked. -/
theorem C4_sort_truncate (cfg : SearchConfig) (lib : LibraryData) (query : List Char) :
    (searchDestinations cfg query (some lib)).length =
      min cfg.maxSuggestions (scoredResults (trimL (toLowerL query)) lib.nodes).length ∧
    ∃ L : List (Nat × DestNode × Nat),
      L.Perm (scoredResults (trimL (toLowerL query)) lib.nodes).enum ∧
      List.Pairwise (fun a b => b.2.2 < a.2.2 ∨ (a.2.2 = b.2.2 ∧
        (a.2.1.name.length < b.2.1.name.length ∨
          (a.2.1.name.length = b.2.1.name.length ∧ a.1 < b.1)))) L ∧
      searchDestinations cfg query (some lib) =
        (L.take cfg.maxSuggestions).map (fun x => x.2.1) := by
  have heq : searchDestinations cfg query (some lib) =
      ((rankedCandidates (scoredResults (trimL (toLowerL query)) lib.nodes)).take
        cfg.maxSuggestions).map (fun x => x.2.1) := rfl
  constructor
  · rw [heq, List.length_map, List.length_take, rankedCandidates_length]
  · refine ⟨rankedCandidates (scoredResults (trimL (toLowerL query)) lib.nodes),
      List.perm_insertionSort rankLe _, ?_, heq⟩
    have hsorted : List.Pairwise rankLe
        (rankedCandidates (scoredResults (trimL (toLowerL query)) lib.nodes)) :=
      List.sorted_insertionSort rankLe _
    have hperm : (rankedCandidates (scoredResults (trimL (toLowerL query))
        lib.nodes)).Perm (scoredResults (trimL (toLowerL query)) lib.nodes).enum :=
      List.perm_insertionSort rankLe _
    have hnodup : ((rankedCandidates (scoredResults (trimL (toLowerL query))
        lib.nodes)).map Prod.fst).Nodup := by
      have h1 : (((scoredResults (trimL (toLowerL query)) lib.nodes).enum).map
          Prod.fst).Nodup := by
        rw [List.enum_map_fst]
        exact List.nodup_range _
      exact ((hperm.map Prod.fst).nodup_iff).mpr h1
    have hne : List.Pairwise (fun a b : Nat × DestNode × Nat => a.1 ≠ b.1)
        (rankedCandidates (scoredResults (trimL (toLowerL query)) lib.nodes)) :=
      List.pairwise_map.mp hnodup
    exact (hsorted.and hne).imp fun h => rankLe_strict _ _ h.1 h.2

theorem nine_max_fold (a1 a2 a3 a4 a5 a6 a7 a8 a9 : Nat) :
    max (max (max (max (max (max (max (max a1 a2) a3) a4) a5) a6) a7) a8) a9 =
      [a1, a2, a3, a4, a5, a6, a7, a8, a9].foldr max 0 := by
  simp only [List.foldr, Nat.max_zero, Nat.max_assoc]

theorem nine_max_bound (a1 a2 a3 a4 a5 a6 a7 a8 a9 : Nat)
    (h1 : a1 ≤ 100) (h2 : a2 ≤ 100) (h3 : a3 ≤ 100) (h4 : a4 ≤ 100)
    (h5 : a5 ≤ 100) (h6 : a6 ≤ 75) (h7 : a7 ≤ 75) (h8 : a8 ≤ 85)
    (h9 : a9 ≤ 60) :
    max (max (max (max (max (max (max (max a1 a2) a3) a4) a5) a6) a7) a8) a9 ≤ 100 := by
  refine Nat.max_le.mpr ⟨Nat.max_le.mpr ⟨Nat.max_le.mpr ⟨Nat.max_le.mpr
    ⟨Nat.max_le.mpr ⟨Nat.max_le.mpr ⟨Nat.max_le.mpr ⟨Nat.max_le.mpr
    ⟨h1, h2⟩, h3⟩, h4⟩, h5⟩, ?_⟩, ?_⟩, ?_⟩, ?_⟩
  · omega
  · omega
  · omega
  · omega

/-- C5 (confirmed): the final score of a node is the maximum of the nine
individual heuristic scores it qualifies for, never a sum, and always lies
in the range 0 to 100 (the lower bound holds because scores are natural
numbers). -/
theorem C5_score_max_bounded (q : List Char) (n : DestNode) :
    scoreNode q n =
      [h1val q n, h2val q n, h3val q n, h4val q n, h5val q n, h6val q n,
        h7val q n, h8val q n, h9val q n].foldr max 0 ∧
    scoreNode q n ≤ 100 := by
  have e9 := scoreNode_eq_max q n
  have e8 := scoreThrough8_eq_max q n
  have e7 := scoreThrough7_eq_max q n
  have e6 := scoreThrough6_eq q n
  have ech : chainScore q (toLowerL n.name) (splitWs (toLowerL n.name)) =
      max (max (max (max (h1val q n) (h2val q n)) (h3val q n)) (h4val q n))
        (h5val q n) := by
    unfold h1val h2val h3val h4val h5val
    exact chainScore_eq_max q (toLowerL n.name) (splitWs (toLowerL n.name))
  have e6' : h6val q n = keywordScore q n.search_keywords := rfl
  have b1 : h1val q n ≤ 100 := by unfold h1val; split_ifs <;> omega
  have b2 : h2val q n ≤ 100 := by unfold h2val; split_ifs <;> omega
  have b3 : h3val q n ≤ 100 := by unfold h3val; split_ifs <;> omega
  have b4 : h4val q n ≤ 100 := by unfold h4val; split_ifs <;> omega
  have b5 : h5val q n ≤ 100 := by unfold h5val; split_ifs <;> omega
  have b6 : h6val q n ≤ 75 := keywordScore_le q _
  have b7 : h7val q n ≤ 75 := h7val_le q n
  have b8 : h8val q n ≤ 85 := h8val_le q n
  have b9 : h9val q n ≤ 60 := h9val_le q n
  rw [e9, e8, e7, e6, ech, ← e6']
  exact ⟨nine_max_fold _ _ _ _ _ _ _ _ _,
    nine_max_bound _ _ _ _ _ _ _ _ _ b1 b2 b3 b4 b5 b6 b7 b8 b9⟩

/-- C6 (confirmed): the fuzzy heuristic runs only when the score after
heuristics 1-8 is still 0 and the query has at least three characters; a
nonzero earlier score (or a short query) is returned unchanged, so fuzzy
matching never overrides it. -/
theorem C6_fuzzy_gated (q : List Char) (n : DestNode)
    (h : scoreThrough8 q n ≠ 0 ∨ q.length < 3) :
    scoreNode q n = scoreThrough8 q n := by
  unfold scoreNode
  dsimp only
  rw [if_neg]
  rintro ⟨h0, h3⟩
  rcases h with h | h
  · exact h h0
  · omega

/-- Witness for C6 at the query "lib" and the node "Library Commons",
whose score after heuristics 1-8 is nonzero. -/
theorem C6_fuzzy_gated_witness :
    scoreNode (strL "lib") libraryCommons = scoreThrough8 (strL "lib") libraryCommons :=
  C6_fuzzy_gated (strL "lib") libraryCommons (Or.inl (by decide))

/-- C7 (confirmed): the fuzzy heuristic considers exactly the
whitespace-delimited words within two characters of the query length,
scores each accepted word by floor(similarity * 60) with similarity at
least 0.7 (in exact arithmetic), keeps the best across words; and the
spec example holds: "libary" against "Library Commons" has edit distance 1
to "library", similarity 6/7, fuzzy score 51. -/
theorem C7_fuzzy_spec :
    (∀ text q : List Char,
      getFuzzyMatchScore text q =
        ((splitWs text).filter fun w =>
          decide (w.length ≤ q.length + 2 ∧ q.length ≤ w.length + 2)).foldr
          (fun w b => max (wordFuzzyScore q w) b) 0) ∧
    levenshteinDistance (strL "library") (strL "libary") = 1 ∧
    wordFuzzyScore (strL "libary") (strL "library") = 51 ∧
    getFuzzyMatchScore (strL "library commons") (strL "libary") = 51 := by
  refine ⟨?_, by decide, by decide, by decide⟩
  intro text q
  unfold getFuzzyMatchScore
  have h1 := foldl_max_shift (wordFuzzyScore q) (splitWs text) 0
  have h2 := foldr_max_filter (wordFuzzyScore q)
      (fun w => decide (w.length ≤ q.length + 2 ∧ q.length ≤ w.length + 2))
      (fun w hw => by
        unfold wordFuzzyScore
        rw [if_neg (by simpa using hw)])
      (splitWs text)
  rw [h1, h2]
  omega

/-- C8 (confirmed): `levenshteinDistance` computes exactly the minimum
number of single-character insertions, deletions and substitutions
transforming `a` into `b` (a non-negative integer, being a natural
number): it is the least cost of any edit script. -/
theorem C8_levenshtein_least (a b : List Char) :
    IsLeast { n : Nat | Edits a b n } (levenshteinDistance a b) := by
  rw [lev_eq_levCore]
  constructor
  · have h := (edits_levCore a.reverse b.reverse).rev
    simpa using h
  · intro n hn
    exact levCore_le_edits (Edits.rev hn)

theorem toLowerL_ne_nil {term : List Char} (h : term ≠ []) : toLowerL term ≠ [] := by
  simp only [toLowerL, ne_eq, List.map_eq_nil_iff]
  exact h

theorem take_eq_of_prefix {u v : List Char} (n : Nat) (h : u <+: v)
    (hn : n ≤ u.length) : v.take n = u.take n := by
  obtain ⟨w, rfl⟩ := h
  rw [List.take_append_eq_append_take, Nat.sub_eq_zero_of_le hn, List.take_zero,
    List.append_nil]

theorem prefix_match_at (term u v : List Char) (hu : u <+: v)
    (hpre : toLowerL term <+: toLowerL u) :
    toLowerL (v.take term.length) = toLowerL term := by
  have hlen : term.length ≤ u.length := by
    have h := hpre.length_le
    simpa [toLowerL] using h
  have h1 : toLowerL (v.take term.length) = (toLowerL v).take term.length := by
    simp [toLowerL, List.map_take]
  have h2 : (toLowerL v).take term.length = (toLowerL u).take term.length :=
    take_eq_of_prefix term.length (List.IsPrefix.map Char.toLower hu)
      (by simpa [toLowerL] using hlen)
  have h3 : (toLowerL u).take term.length = toLowerL term := by
    obtain ⟨w, hw⟩ := hpre
    rw [← hw]
    rw [show term.length = (toLowerL term).length from by simp [toLowerL],
      List.take_left]
  rw [h1, h2, h3]

/-- Decomposition of the highlight scan: for a non-empty term, the input
splits into gap / match segments; the output is the same segments with
every match wrapped in the markers (the matched text taken verbatim from
the input, preserving its casing); every match equals the term
case-insensitively; and no full case-insensitive occurrence of the term
hides inside a gap or in the trailing gap (the scan tried and rejected
every position it skipped). -/
theorem highlightScanF_decomp :
    ∀ (fuel : Nat) (l term : List Char), l.length ≤ fuel → term ≠ [] →
      ∃ segs : List (List Char × List Char), ∃ tailGap : List Char,
        l = (segs.map fun p => p.1 ++ p.2).flatten ++ tailGap ∧
        highlightScanF term fuel l =
          (segs.map fun p => p.1 ++ markOpen ++ p.2 ++ markClose).flatten ++ tailGap ∧
        (∀ p ∈ segs, toLowerL p.2 = toLowerL term ∧
          ¬ toLowerL term <:+: toLowerL p.1) ∧
        ¬ toLowerL term <:+: toLowerL tailGap := by
  intro fuel
  induction fuel with
  | zero =>
    intro l term hlen hterm
    have hl : l = [] := List.eq_nil_of_length_eq_zero (by omega)
    subst hl
    refine ⟨[], [], by simp, by simp [highlightScanF], by simp, ?_⟩
    intro hinf
    rw [show toLowerL [] = [] from rfl, List.infix_nil] at hinf
    exact toLowerL_ne_nil hterm hinf
  | succ fuel ih =>
    intro l term hlen hterm
    cases l with
    | nil =>
      refine ⟨[], [], by simp, by simp [highlightScanF], by simp, ?_⟩
      intro hinf
      rw [show toLowerL [] = [] from rfl, List.infix_nil] at hinf
      exact toLowerL_ne_nil hterm hinf
    | cons c rest =>
      by_cases hcond : term ≠ [] ∧
          toLowerL ((c :: rest).take term.length) = toLowerL term
      · have htl : 1 ≤ term.length := by
          cases term with
          | nil => exact absurd rfl hterm
          | cons a t => simp
        have hdrop : ((c :: rest).drop term.length).length ≤ fuel := by
          simp only [List.length_drop, List.length_cons]
          simp only [List.length_cons] at hlen
          omega
        obtain ⟨segs, tailGap, h1, h2, h3, h4⟩ :=
          ih ((c :: rest).drop term.length) term hdrop hterm
        refine ⟨([], (c :: rest).take term.length) :: segs, tailGap, ?_, ?_, ?_, h4⟩
        · simp only [List.map_cons, List.flatten_cons, List.nil_append,
            List.append_assoc]
          rw [← h1, List.take_append_drop]
        · simp only [highlightScanF, if_pos hcond]
          rw [h2]
          simp only [List.map_cons, List.flatten_cons, List.nil_append,
            List.append_assoc]
        · intro p hp
          rcases List.mem_cons.mp hp with hp | hp
          · subst hp
            refine ⟨hcond.2, ?_⟩
            intro hinf
            rw [show toLowerL [] = [] from rfl, List.infix_nil] at hinf
            exact toLowerL_ne_nil hterm hinf
          · exact h3 p hp
      · have hrest : rest.length ≤ fuel := by
          simp only [List.length_cons] at hlen
          omega
        obtain ⟨segs, tailGap, h1, h2, h3, h4⟩ := ih rest term hrest hterm
        cases segs with
        | nil =>
          have hrt : rest = tailGap := by simpa using h1
          subst hrt
          refine ⟨[], c :: rest, by simp, ?_, by simp, ?_⟩
          · simp only [highlightScanF, if_neg hcond]
            rw [h2]
            simp
          · intro hinf
            rw [show toLowerL (c :: rest) =
              Char.toLower c :: toLowerL rest from rfl] at hinf
            rcases List.infix_cons_iff.mp hinf with hpre | hinf2
            · refine hcond ⟨hterm,
                prefix_match_at term (c :: rest) (c :: rest) (List.prefix_refl _) ?_⟩
              rw [show toLowerL (c :: rest) =
                Char.toLower c :: toLowerL rest from rfl]
              exact hpre
            · exact h4 hinf2
        | cons p segs' =>
          have hp1 : p.1 <+: rest := by
            refine ⟨p.2 ++ ((segs'.map fun x => x.1 ++ x.2).flatten ++ tailGap), ?_⟩
            rw [h1]
            simp [List.append_assoc]
          obtain ⟨w, hw⟩ := hp1
          refine ⟨(c :: p.1, p.2) :: segs', tailGap, ?_, ?_, ?_, h4⟩
          · simp only [List.map_cons, List.flatten_cons, List.cons_append,
              List.append_assoc] at h1 ⊢
            rw [h1]
          · simp only [highlightScanF, if_neg hcond]
            rw [h2]
            simp only [List.map_cons, List.flatten_cons, List.cons_append,
              List.append_assoc]
          · intro x hx
            rcases List.mem_cons.mp hx with hx | hx
            · subst hx
              have hps := h3 p (List.mem_cons_self p segs')
              refine ⟨hps.1, ?_⟩
              intro hinf
              rw [show toLowerL (c :: p.1) =
                Char.toLower c :: toLowerL p.1 from rfl] at hinf
              rcases List.infix_cons_iff.mp hinf with hpre | hinf2
              · refine hcond ⟨hterm, ?_⟩
                refine prefix_match_at term (c :: p.1) (c :: rest) ?_ ?_
                · exact List.cons_prefix_cons.mpr ⟨rfl, ⟨w, hw⟩⟩
                · rw [show toLowerL (c :: p.1) =
                    Char.toLower c :: toLowerL p.1 from rfl]
                  exact hpre
              · exact hps.2 hinf2
            · exact h3 x (List.mem_cons_of_mem _ hx)

theorem highlight_decomp (name q : List Char) (hq : q ≠ []) :
    ∃ segs : List (List Char × List Char), ∃ tailGap : List Char,
      name = (segs.map fun p => p.1 ++ p.2).flatten ++ tailGap ∧
      highlightSearchTerm name q =
        (segs.map fun p => p.1 ++ markOpen ++ p.2 ++ markClose).flatten ++ tailGap ∧
      (∀ p ∈ segs, toLowerL p.2 = toLowerL q ∧ ¬ toLowerL q <:+: toLowerL p.1) ∧
      ¬ toLowerL q <:+: toLowerL tailGap := by
  have he : highlightSearchTerm name q = highlightScanF q name.length name := by
    unfold highlightSearchTerm highlightScan
    rw [if_neg (by
      cases q with
      | nil => exact absurd rfl hq
      | cons a l => simp)]
  rw [he]
  exact highlightScanF_decomp name.length name q le_rfl hq

/-- C9 (corrected): the claim says the formatter wraps EVERY
case-insensitive occurrence of the raw query in the name.  The global
replace scans left to right and resumes after each match, so an
occurrence overlapping an already-consumed match is not wrapped.  For the
name "aaa" and the query "aa" there are two occurrences (at indices 0 and
1), but the output wraps only the one at index 0 (a single marker pair,
witnessed by exactly two markup characters in the output); the occurrence
at index 1 stays unwrapped. -/
theorem C9_highlight_counterexample :
    (List.range 3).countP
      (fun i => decide (toLowerL (((strL "aaa").drop i).take 2) =
        toLowerL (strL "aa"))) = 2 ∧
    highlightSearchTerm (strL "aaa") (strL "aa") =
      markOpen ++ strL "aa" ++ markClose ++ strL "a" ∧
    (highlightSearchTerm (strL "aaa") (strL "aa")).count '<' = 2 := by
  decide

/-- C9 (amended): the highlight formatter returns the name unchanged for
an empty query or when the query does not occur case-insensitively in the
name; `escapeRegExp` escapes every regex metacharacter so the constructed
pattern denotes the literal query (round-trip through the escape); and for
every name and non-empty query the output decomposes into the gap / match
segments of the left-to-right non-overlapping scan: each match is wrapped
in the markers with its text taken verbatim from the name (original casing
preserved), each match equals the query case-insensitively, and no full
occurrence of the query remains in any gap or in the trailing gap — every
occurrence found by the scan is wrapped, while an occurrence overlapping a
previous match is skipped.  Concrete cases: casing preserved for
"Room 2B" / "2b", both occurrences wrapped in "2b 2B", "." matches only
literally, and "aaa" / "aa" wraps only the first of the two overlapping
occurrences. -/
theorem C9_highlight :
    (∀ name : List Char, highlightSearchTerm name [] = name) ∧
    (∀ name q : List Char, q ≠ [] → ¬ (toLowerL q <:+: toLowerL name) →
      highlightSearchTerm name q = name) ∧
    (∀ s : List Char, unescapeRegex (escapeRegExp s) = s) ∧
    (∀ name q : List Char, q ≠ [] →
      ∃ segs : List (List Char × List Char), ∃ tailGap : List Char,
        name = (segs.map fun p => p.1 ++ p.2).flatten ++ tailGap ∧
        highlightSearchTerm name q =
          (segs.map fun p => p.1 ++ markOpen ++ p.2 ++ markClose).flatten ++ tailGap ∧
        (∀ p ∈ segs, toLowerL p.2 = toLowerL q ∧ ¬ toLowerL q <:+: toLowerL p.1) ∧
        ¬ toLowerL q <:+: toLowerL tailGap) ∧
    highlightSearchTerm (strL "Room 2B") (strL "2b") =
      strL "Room " ++ markOpen ++ strL "2B" ++ markClose ∧
    highlightSearchTerm (strL "2b 2B") (strL "2b") =
      markOpen ++ strL "2b" ++ markClose ++ strL " " ++
        markOpen ++ strL "2B" ++ markClose ∧
    highlightSearchTerm (strL "a.c") (strL ".") =
      strL "a" ++ markOpen ++ strL "." ++ markClose ++ strL "c" ∧
    highlightSearchTerm (strL "abc") (strL ".") = strL "abc" ∧
    highlightSearchTerm (strL "aaa") (strL "aa") =
      markOpen ++ strL "aa" ++ markClose ++ strL "a" := by
  refine ⟨fun name => rfl, highlight_no_occurrence, unescape_escape,
    highlight_decomp, by decide, by decide, by decide, by decide, by decide⟩

/-- Witness for C9 at a name with no occurrence of the query. -/
theorem C9_highlight_witness :
    highlightSearchTerm (strL "Lobby") (strL "zz") = strL "Lobby" :=
  C9_highlight.2.1 (strL "Lobby") (strL "zz") (by decide) (by decide)

/-- C10 (confirmed): heuristic 7 is unreachable: whenever heuristics 1-6
leave the score at 0, no whitespace-delimited word of the lowercased name
contains the query and the lowercased name does not contain the query, so
the engine with heuristic 7 removed returns identical output to the full
engine on every input. -/
theorem C10_heuristic7_unreachable :
    (∀ (cfg : SearchConfig) (query : List Char) (lib : Option LibraryData),
        searchDestinationsNo7 cfg query lib = searchDestinations cfg query lib) ∧
    ∀ (q : List Char) (n : DestNode), scoreThrough6 q n = 0 →
      (∀ w ∈ splitWs (toLowerL n.name), ¬ q <:+: w) ∧ ¬ q <:+: toLowerL n.name :=
  ⟨searchDestinationsNo7_eq, scoreThrough6_zero_no_match⟩

/-- Witness for C10 at the query "zzz" and the node "Lobby", whose score
after heuristics 1-6 is 0. -/
theorem C10_heuristic7_witness :
    ¬ strL "zzz" <:+: toLowerL lobbyNode.name :=
  (C10_heuristic7_unreachable.2 (strL "zzz") lobbyNode (by decide)).2
